import Mathlib

/-!
Shallow embedding of `src/src/lib.rs` of the `weighted-probability-rs`
repository: Vose's alias method with exact rational weights.

Modelling conventions:
* Rust `u64` arithmetic is `ℕ` with an explicit `% 2 ^ 64` at every `u64`
  addition and multiplication the source performs (release-mode wrapping);
  the claims all assume no overflow, under which the wrap is the identity.
* The crate type `fraction::Fraction` is modelled as `ℚ`.  Its `+`, `-`,
  `<`, `<=` agree with `ℚ` whenever no internal `u64` overflow occurs and
  no denominator is zero, the regime in which all fraction arithmetic of
  the build runs.  The one place a zero denominator occurs — a zero `u64`
  weight sum, where the crate produces NaN/`+Infinity` values that are
  never `< one` — is carried as an explicit branch of
  `from_weighted_tuples`, on which no fraction is ever compared or
  stored (see its doc comment).
* Rust `Vec` used as a stack (`push`/`pop` at the end) is a `List` whose
  head is the top of the stack; the two result vectors, which only grow at
  the end, are `List`s appended at the tail, preserving index order.
* A Rust panic (out-of-bounds index, `% 0`) is `Option.none`: `select`
  returns `Option T`.
-/

namespace WeightedProbability

/-- The `u64` modulus. -/
def U64 : ℕ := 2 ^ 64

/-- Wrapping `u64` addition, as performed by `total + next` in the
weight-sum fold. -/
def wrapAdd (a b : ℕ) : ℕ := (a + b) % U64

/-- Wrapping `u64` multiplication, as performed by `wt.weight * count`. -/
def wrapMul (a b : ℕ) : ℕ := (a * b) % U64

/-- Source `WeightedTuple<T>`: a `u64` weight and a payload. -/
structure WeightedTuple (T : Type) where
  weight : ℕ
  value : T
deriving DecidableEq, Repr

/-- Source `NormalizedWeightTuple<T>`: an exact fractional weight
paired with the payload. -/
structure NormalizedWeightTuple (T : Type) where
  fractional_weight : ℚ
  value : T
deriving DecidableEq, Repr

/-- Source `Alias<T>`: the built table, the `probabilities`
vector of normalized tuples and the `aliases` vector of payloads. -/
structure Alias (T : Type) where
  probabilities : List (NormalizedWeightTuple T)
  aliases : List T
deriving DecidableEq, Repr

/-- Source `AliasCreationError`. -/
structure AliasCreationError where
  message : String
deriving DecidableEq, Repr

/-- Crate `Fraction::new(num, den)` for `den ≠ 0`: the exact rational
`num / den`.  For `den = 0` the crate yields NaN (`num = 0`) or
`+Infinity` (`num ≠ 0`); neither satisfies the crate's `< one`
comparison, so in that case — which arises exactly when the `u64` weight
sum is `0` — every item classifies large.  `from_weighted_tuples` below
carries that case as an explicit branch, on which these stand-in `ℚ`
values (Lean's `x / 0 = 0`) are never compared or stored: the drain loop
overwrites every weight with the exact `1`. -/
def mkFraction (num den : ℕ) : ℚ := (num : ℚ) / (den : ℚ)

/-- The wrapping `u64` weight sum of lib.rs lines 104–107:
`items.iter().map(|wt| wt.weight).fold(0, |total, next| total + next)`. -/
def weightSum {T : Type} (items : List (WeightedTuple T)) : ℕ :=
  (items.map (·.weight)).foldl wrapAdd 0

/-- The normalization map of lib.rs lines 108–111: each item receives
fractional weight `Fraction::new(wt.weight * count, sum)`. -/
def normalize {T : Type} (items : List (WeightedTuple T)) :
    List (NormalizedWeightTuple T) :=
  items.map fun wt =>
    ⟨mkFraction (wrapMul wt.weight items.length) (weightSum items), wt.value⟩

/-- The partition of lib.rs lines 117–126: items with fractional weight
`< 1` are pushed onto the `small` stack, the rest onto the `large`
stack.  Stacks are head-topped lists, so a push is a cons. -/
def partitionStacks {T : Type} (norm : List (NormalizedWeightTuple T)) :
    List (NormalizedWeightTuple T) × List (NormalizedWeightTuple T) :=
  norm.foldl
    (fun acc item =>
      if item.fractional_weight < 1 then (item :: acc.1, acc.2)
      else (acc.1, item :: acc.2))
    ([], [])

/-- The `reduced_fraction` of lib.rs lines 133–134:
`current_large_item.fractional_weight + current_large_item.fractional_weight - one`.
Note that it uses the large item's weight twice and never consults the
small item. -/
def reduced_fraction {T : Type} (g : NormalizedWeightTuple T) : ℚ :=
  g.fractional_weight + g.fractional_weight - 1

/-- The pairing loop of lib.rs lines 128–144.  State:
`(small, large, finalized_probabilities, finalized_aliases)`.  While both
stacks are non-empty, pop `l` from small and `g` from large, emit the slot
`(l, g.value)`, and push `g` with weight `reduced_fraction g` back onto
small or large according to whether the reduced weight is `< 1`. -/
def pairLoop {T : Type} :
    List (NormalizedWeightTuple T) → List (NormalizedWeightTuple T) →
    List (NormalizedWeightTuple T) → List T →
    List (NormalizedWeightTuple T) × List (NormalizedWeightTuple T) ×
      List (NormalizedWeightTuple T) × List T
  | l :: s, g :: lg, probs, aliases =>
    if reduced_fraction g < 1 then
      pairLoop (⟨reduced_fraction g, g.value⟩ :: s) lg
        (probs ++ [l]) (aliases ++ [g.value])
    else
      pairLoop s (⟨reduced_fraction g, g.value⟩ :: lg)
        (probs ++ [l]) (aliases ++ [g.value])
  | small, large, probs, aliases => (small, large, probs, aliases)
termination_by s lg _ _ => s.length + lg.length
decreasing_by
  · simp only [List.length_cons]; omega
  · simp only [List.length_cons]; omega

/-- The drain loop of lib.rs lines 146–152: pop each remaining large item
and emit a slot with probability exactly `1` (and no alias entry). -/
def drainLarge {T : Type} :
    List (NormalizedWeightTuple T) → List (NormalizedWeightTuple T) →
    List (NormalizedWeightTuple T)
  | [], probs => probs
  | g :: rest, probs => drainLarge rest (probs ++ [⟨1, g.value⟩])

/-- Source `Alias::from_weighted_tuples`, lib.rs lines 93–158.  The
middle branch is not a literal branch of the source: it is the image of
the crate's comparison semantics when the `u64` weight sum is `0`.
Every `Fraction::new(_, 0)` is then NaN or `+Infinity`, for which
`fractional_weight < one` is false, so the partition pushes every item
onto the large stack (top = last input item), the pairing loop is
skipped (small is empty), and the drain pops the whole large stack —
`(normalize items).reverse` in this embedding — emitting one
probability-`1` slot per item and no alias entry.  The stand-in `ℚ`
weights inside `normalize items` are ignored by `drainLarge`, which
reads only the values.  When the sum is non-zero every fraction is
finite and the `ℚ` model is exact, so the source's single pipeline is
followed literally. -/
def from_weighted_tuples {T : Type} (items : List (WeightedTuple T)) :
    Except AliasCreationError (Alias T) :=
  if items.length = 0 then
    .error ⟨"no weighted tuples were provided"⟩
  else if weightSum items = 0 then
    .ok ⟨drainLarge ((normalize items).reverse) [], []⟩
  else
    let pr := partitionStacks (normalize items)
    let res := pairLoop pr.1 pr.2 [] []
    .ok ⟨drainLarge res.2.1 res.2.2.1, res.2.2.2⟩

/-- Source `Alias::select`, lib.rs lines 160–171, with the random source's
output `(z, u)` (the `usize` die roll and the `f32` coin, the latter
already converted to its exact rational value) passed explicitly.
`none` models a Rust panic (`% 0` or an out-of-bounds index). -/
def select {T : Type} (a : Alias T) (z : ℕ) (u : ℚ) : Option T :=
  match a.probabilities.get? (z % a.probabilities.length) with
  | none => none
  | some cp =>
    if u ≤ cp.fractional_weight then some cp.value
    else a.aliases.get? (z % a.probabilities.length)

/-- The true (non-wrapping) weight sum, used to phrase the claims'
no-overflow preconditions. -/
def trueWeightSum {T : Type} (items : List (WeightedTuple T)) : ℕ :=
  (items.map (·.weight)).sum

/-- The claims' no-overflow precondition: the weight sum and every
`weight * count` product fit in a `u64`. -/
def NoOverflow {T : Type} (items : List (WeightedTuple T)) : Prop :=
  trueWeightSum items < U64 ∧
    ∀ wt ∈ items, wt.weight * items.length < U64

instance {T : Type} (items : List (WeightedTuple T)) :
    Decidable (NoOverflow items) := by
  unfold NoOverflow; infer_instance

/-- Spec-side definition for C1 (from the claim's words, to be compared
with the table the code builds): `(1/n)` times the sum over all slots of
the stored probability where the slot's value is `v`, plus `1 -` the
stored probability where the slot's alias entry is `v`.  Alias entries
pair with the first `aliases.length` slots, in order. -/
def spec_selectionMass {T : Type} [DecidableEq T] (a : Alias T) (v : T) : ℚ :=
  ((a.probabilities.map
      (fun p => if p.value = v then p.fractional_weight else 0)).sum
    + ((a.probabilities.zip a.aliases).map
        (fun pa => if pa.2 = v then 1 - pa.1.fractional_weight else 0)).sum)
    / (a.probabilities.length : ℚ)

/-- The pairing loop as the spec reads it for C10's purposes: identical to
`pairLoop` except that the branch reinserting a reduced large item into
the small stack is removed (the reduced item always returns to large). -/
def pairLoopNoReinsert {T : Type} :
    List (NormalizedWeightTuple T) → List (NormalizedWeightTuple T) →
    List (NormalizedWeightTuple T) → List T →
    List (NormalizedWeightTuple T) × List (NormalizedWeightTuple T) ×
      List (NormalizedWeightTuple T) × List T
  | l :: s, g :: lg, probs, aliases =>
    pairLoopNoReinsert s (⟨reduced_fraction g, g.value⟩ :: lg)
      (probs ++ [l]) (aliases ++ [g.value])
  | small, large, probs, aliases => (small, large, probs, aliases)

/-- Iterated application of the loop's weight update to a single large
item: the state of the top large item after `k` pairing iterations. -/
def reduceN {T : Type} : ℕ → NormalizedWeightTuple T → NormalizedWeightTuple T
  | 0, g => g
  | k + 1, g => reduceN k ⟨reduced_fraction g, g.value⟩

/-- The small stack produced by the partition, characterized as a filter:
the items with fractional weight `< 1`, in reverse input order (top of
stack first). -/
def smallPart {T : Type} (items : List (WeightedTuple T)) :
    List (NormalizedWeightTuple T) :=
  ((normalize items).filter fun x => decide (x.fractional_weight < 1)).reverse

/-- The large stack produced by the partition, characterized as a filter:
the items with fractional weight `≥ 1`, in reverse input order. -/
def largePart {T : Type} (items : List (WeightedTuple T)) :
    List (NormalizedWeightTuple T) :=
  ((normalize items).filter fun x => !decide (x.fractional_weight < 1)).reverse

/-! ### Unfolding equations for the pairing and drain loops -/

lemma pairLoop_nil_small {T : Type} (lg probs : List (NormalizedWeightTuple T))
    (als : List T) : pairLoop [] lg probs als = ([], lg, probs, als) := by
  rw [pairLoop]
  intro l s g lg h1 h2
  cases h1

lemma pairLoop_nil_large {T : Type} (sm probs : List (NormalizedWeightTuple T))
    (als : List T) : pairLoop sm [] probs als = (sm, [], probs, als) := by
  cases sm <;> rw [pairLoop] <;> intro l s g lg h1 h2 <;> cases h2

lemma pairLoop_cons {T : Type} (l g : NormalizedWeightTuple T)
    (s lg probs : List (NormalizedWeightTuple T)) (als : List T) :
    pairLoop (l :: s) (g :: lg) probs als =
      if reduced_fraction g < 1 then
        pairLoop (⟨reduced_fraction g, g.value⟩ :: s) lg
          (probs ++ [l]) (als ++ [g.value])
      else
        pairLoop s (⟨reduced_fraction g, g.value⟩ :: lg)
          (probs ++ [l]) (als ++ [g.value]) := by
  rw [pairLoop]

lemma drainLarge_eq {T : Type} (lg probs : List (NormalizedWeightTuple T)) :
    drainLarge lg probs =
      probs ++ lg.map (fun g => ⟨1, g.value⟩) := by
  induction lg generalizing probs with
  | nil => simp [drainLarge]
  | cons g rest ih => simp [drainLarge, ih]

/-! ### The loop's weight update preserves largeness -/

lemma reduceN_value {T : Type} (k : ℕ) (g : NormalizedWeightTuple T) :
    (reduceN k g).value = g.value := by
  induction k generalizing g with
  | zero => rfl
  | succ k ih => simpa [reduceN] using ih ⟨reduced_fraction g, g.value⟩

lemma one_le_reduced {T : Type} {g : NormalizedWeightTuple T}
    (hg : 1 ≤ g.fractional_weight) : 1 ≤ reduced_fraction g := by
  unfold reduced_fraction; linarith

lemma one_le_reduceN {T : Type} (k : ℕ) {g : NormalizedWeightTuple T}
    (hg : 1 ≤ g.fractional_weight) : 1 ≤ (reduceN k g).fractional_weight := by
  induction k generalizing g with
  | zero => exact hg
  | succ k ih => exact ih (one_le_reduced hg)

/-- Closed form of the pairing loop when the top large item has weight
`≥ 1`: since the updated weight `reduced_fraction g = 2g - 1` is then
again `≥ 1`, the reinsert-into-small branch never fires, the same top
large item is popped every iteration, each small item is emitted in
order as a probability slot, and each emitted alias is the top large
item's value. -/
lemma pairLoop_ge_one {T : Type} (small : List (NormalizedWeightTuple T))
    (g : NormalizedWeightTuple T) (gs probs : List (NormalizedWeightTuple T))
    (als : List T) (hg : 1 ≤ g.fractional_weight) :
    pairLoop small (g :: gs) probs als =
      ([], reduceN small.length g :: gs, probs ++ small,
        als ++ List.replicate small.length g.value) := by
  induction small generalizing g probs als with
  | nil => simp [pairLoop_nil_small, reduceN]
  | cons l s ih =>
    rw [pairLoop_cons, if_neg (not_lt.mpr (one_le_reduced hg))]
    rw [ih ⟨reduced_fraction g, g.value⟩ (probs ++ [l]) (als ++ [g.value])
      (one_le_reduced hg)]
    simp [reduceN, List.replicate_succ]

/-- Closed form of `pairLoopNoReinsert` (no hypothesis needed: every
reduced item returns to the large stack by construction). -/
lemma pairLoopNoReinsert_eq {T : Type} (small : List (NormalizedWeightTuple T))
    (g : NormalizedWeightTuple T) (gs probs : List (NormalizedWeightTuple T))
    (als : List T) :
    pairLoopNoReinsert small (g :: gs) probs als =
      ([], reduceN small.length g :: gs, probs ++ small,
        als ++ List.replicate small.length g.value) := by
  induction small generalizing g probs als with
  | nil => simp [pairLoopNoReinsert, reduceN]
  | cons l s ih =>
    rw [pairLoopNoReinsert]
    rw [ih ⟨reduced_fraction g, g.value⟩ (probs ++ [l]) (als ++ [g.value])]
    simp [reduceN, List.replicate_succ]

/-! ### Partition characterization -/

lemma partitionStacks_foldl {T : Type} (norm : List (NormalizedWeightTuple T))
    (s0 l0 : List (NormalizedWeightTuple T)) :
    norm.foldl
      (fun acc item =>
        if item.fractional_weight < 1 then (item :: acc.1, acc.2)
        else (acc.1, item :: acc.2))
      (s0, l0) =
      ((norm.filter fun x => decide (x.fractional_weight < 1)).reverse ++ s0,
       (norm.filter fun x => !decide (x.fractional_weight < 1)).reverse ++ l0) := by
  induction norm generalizing s0 l0 with
  | nil => simp
  | cons x xs ih =>
    by_cases h : x.fractional_weight < 1
    · simp [List.filter_cons, h, ih]
    · simp [List.filter_cons, h, ih]

lemma partitionStacks_eq {T : Type} (items : List (WeightedTuple T)) :
    partitionStacks (normalize items) = (smallPart items, largePart items) := by
  unfold partitionStacks smallPart largePart
  rw [partitionStacks_foldl]
  simp

lemma mem_smallPart {T : Type} {items : List (WeightedTuple T)}
    {x : NormalizedWeightTuple T} (hx : x ∈ smallPart items) :
    x ∈ normalize items ∧ x.fractional_weight < 1 := by
  unfold smallPart at hx
  rw [List.mem_reverse, List.mem_filter] at hx
  exact ⟨hx.1, by simpa using hx.2⟩

lemma mem_largePart {T : Type} {items : List (WeightedTuple T)}
    {x : NormalizedWeightTuple T} (hx : x ∈ largePart items) :
    x ∈ normalize items ∧ 1 ≤ x.fractional_weight := by
  unfold largePart at hx
  rw [List.mem_reverse, List.mem_filter] at hx
  refine ⟨hx.1, not_lt.mp ?_⟩
  simpa using hx.2

lemma smallPart_largePart_length {T : Type} (items : List (WeightedTuple T)) :
    (smallPart items).length + (largePart items).length = items.length := by
  unfold smallPart largePart
  simp only [List.length_reverse]
  have h := List.length_eq_length_filter_add (l := normalize items)
    (fun x => decide (x.fractional_weight < 1))
  have hlen : (normalize items).length = items.length := by
    simp [normalize]
  omega

/-! ### Exactness of the `u64` arithmetic under the no-overflow regime -/

lemma foldl_wrapAdd (l : List ℕ) (acc : ℕ) (h : acc + l.sum < U64) :
    l.foldl wrapAdd acc = acc + l.sum := by
  induction l generalizing acc with
  | nil => simp
  | cons x xs ih =>
    have hx : wrapAdd acc x = acc + x := by
      have : acc + x < U64 := by simp [List.sum_cons] at h; omega
      simp [wrapAdd, Nat.mod_eq_of_lt this]
    have hsum : acc + x + xs.sum < U64 := by simp [List.sum_cons] at h; omega
    simp only [List.foldl_cons, hx, ih _ hsum, List.sum_cons]
    omega

lemma weightSum_eq {T : Type} {items : List (WeightedTuple T)}
    (h : trueWeightSum items < U64) : weightSum items = trueWeightSum items := by
  unfold weightSum trueWeightSum at *
  simpa using foldl_wrapAdd _ 0 (by omega)

lemma normalize_eq {T : Type} {items : List (WeightedTuple T)}
    (hof : NoOverflow items) :
    normalize items = items.map fun wt =>
      ⟨((wt.weight * items.length : ℕ) : ℚ) / ((trueWeightSum items : ℕ) : ℚ),
        wt.value⟩ := by
  unfold normalize
  refine List.map_congr_left fun wt hwt => ?_
  have h1 : wrapMul wt.weight items.length = wt.weight * items.length :=
    Nat.mod_eq_of_lt (hof.2 wt hwt)
  rw [h1, weightSum_eq hof.1, mkFraction]

lemma normalize_fw_nonneg {T : Type} {items : List (WeightedTuple T)}
    {x : NormalizedWeightTuple T} (hx : x ∈ normalize items) :
    0 ≤ x.fractional_weight := by
  unfold normalize at hx
  obtain ⟨wt, _, rfl⟩ := List.mem_map.mp hx
  exact div_nonneg (Nat.cast_nonneg _) (Nat.cast_nonneg _)

lemma sum_map_weight_div {T : Type} (items : List (WeightedTuple T)) (n S : ℕ) :
    (items.map fun wt => ((wt.weight * n : ℕ) : ℚ) / (S : ℚ)).sum
      = ((trueWeightSum items * n : ℕ) : ℚ) / (S : ℚ) := by
  induction items with
  | nil => simp [trueWeightSum]
  | cons wt rest ih =>
    simp only [List.map_cons, List.sum_cons, ih, trueWeightSum, List.map_cons,
      List.sum_cons]
    push_cast
    ring

lemma normalize_fw_sum {T : Type} {items : List (WeightedTuple T)}
    (hof : NoOverflow items) (hS : 0 < trueWeightSum items) :
    ((normalize items).map (·.fractional_weight)).sum = (items.length : ℚ) := by
  rw [normalize_eq hof, List.map_map]
  have hS0 : ((trueWeightSum items : ℕ) : ℚ) ≠ 0 := by
    exact_mod_cast hS.ne'
  calc ((items.map fun wt =>
        ((wt.weight * items.length : ℕ) : ℚ) / ((trueWeightSum items : ℕ) : ℚ))).sum
      = ((trueWeightSum items * items.length : ℕ) : ℚ)
          / ((trueWeightSum items : ℕ) : ℚ) := sum_map_weight_div items _ _
    _ = (items.length : ℚ) := by
        push_cast
        field_simp

lemma sum_lt_length {l : List ℚ} (hne : l ≠ []) (h : ∀ x ∈ l, x < 1) :
    l.sum < (l.length : ℚ) := by
  induction l with
  | nil => exact absurd rfl hne
  | cons x xs ih =>
    have hx : x < 1 := h x (by simp)
    rcases xs with _ | ⟨y, ys⟩
    · simpa using hx
    · have hlt := ih (by simp) (fun z hz => h z (by simp [hz]))
      simp only [List.sum_cons, List.length_cons] at *
      push_cast at *
      linarith

/-- With a nonempty input, a positive exact weight sum and no overflow,
the large worklist is initially non-empty: the normalized weights sum to
`n`, so not all of them can be `< 1`. -/
lemma largePart_ne_nil {T : Type} {items : List (WeightedTuple T)}
    (hne : items ≠ []) (hS : 0 < trueWeightSum items) (hof : NoOverflow items) :
    largePart items ≠ [] := by
  intro hempty
  unfold largePart at hempty
  rw [List.reverse_eq_nil_iff, List.filter_eq_nil_iff] at hempty
  have hall : ∀ x ∈ normalize items, x.fractional_weight < 1 := by
    intro x hx
    have := hempty x hx
    simpa using this
  have hnormne : (normalize items).map (·.fractional_weight) ≠ [] := by
    simp [normalize]
    exact hne
  have hlt := sum_lt_length hnormne (by
    intro q hq
    obtain ⟨x, hx, rfl⟩ := List.mem_map.mp hq
    exact hall x hx)
  rw [normalize_fw_sum hof hS] at hlt
  have hlen : ((normalize items).map (·.fractional_weight)).length
      = items.length := by simp [normalize]
  rw [hlen] at hlt
  exact lt_irrefl _ hlt

/-- Full characterization of a successful build with positive exact
weight sum and no overflow: the large stack is non-empty, its members
all have weight `≥ 1`, and the resulting table consists of the initial
small items (in stack order) followed by probability-`1` slots for every
large item, with every alias entry equal to the value of the large stack's
initial top item. -/
theorem build_ok_char {T : Type} (items : List (WeightedTuple T))
    (hne : items ≠ []) (hS : 0 < trueWeightSum items) (hof : NoOverflow items) :
    ∃ g gs, largePart items = g :: gs ∧
      1 ≤ g.fractional_weight ∧ (∀ x ∈ gs, 1 ≤ x.fractional_weight) ∧
      from_weighted_tuples items = Except.ok
        ⟨smallPart items ++
            (reduceN (smallPart items).length g :: gs).map
              (fun x => ⟨1, x.value⟩),
          List.replicate (smallPart items).length g.value⟩ := by
  obtain ⟨g, gs, hlg⟩ : ∃ g gs, largePart items = g :: gs := by
    rcases h : largePart items with _ | ⟨g, gs⟩
    · exact absurd h (largePart_ne_nil hne hS hof)
    · exact ⟨g, gs, rfl⟩
  have hg : 1 ≤ g.fractional_weight :=
    (mem_largePart (x := g) (by rw [hlg]; simp)).2
  have hgs : ∀ x ∈ gs, 1 ≤ x.fractional_weight := fun x hx =>
    (mem_largePart (by rw [hlg]; simp [hx])).2
  refine ⟨g, gs, hlg, hg, hgs, ?_⟩
  unfold from_weighted_tuples
  rw [if_neg (by simpa [List.length_eq_zero] using hne),
    if_neg (show ¬ weightSum items = 0 by rw [weightSum_eq hof.1]; omega)]
  simp only [partitionStacks_eq, hlg]
  rw [pairLoop_ge_one _ g gs _ _ hg]
  simp [drainLarge_eq]

/-! ### Claim theorems -/

/-- C5: `from_weighted_tuples` returns an error if and only if the input
list is empty; in that case the error's message is exactly
"no weighted tuples were provided", and every other input — including
inputs whose weights sum to zero — produces a table. -/
theorem c5_error_iff_empty {T : Type} (items : List (WeightedTuple T)) :
    (items = [] →
      from_weighted_tuples items =
        Except.error ⟨"no weighted tuples were provided"⟩) ∧
    (items ≠ [] → ∃ a, from_weighted_tuples items = Except.ok a) := by
  constructor
  · rintro rfl
    rfl
  · intro hne
    unfold from_weighted_tuples
    rw [if_neg (by simpa [List.length_eq_zero] using hne)]
    by_cases h : weightSum items = 0
    · rw [if_pos h]
      exact ⟨_, rfl⟩
    · rw [if_neg h]
      exact ⟨_, rfl⟩

/-- Witness for C5: the empty input errors with the exact message; the
one-item zero-weight input (weight sum zero) is accepted. -/
theorem c5_error_iff_empty_witness :
    (from_weighted_tuples ([] : List (WeightedTuple ℕ)) =
      Except.error ⟨"no weighted tuples were provided"⟩) ∧
    ([(⟨0, 7⟩ : WeightedTuple ℕ)] ≠ []) ∧
    (∃ a, from_weighted_tuples [(⟨0, 7⟩ : WeightedTuple ℕ)] = Except.ok a) :=
  ⟨(c5_error_iff_empty ([] : List (WeightedTuple ℕ))).1 rfl, by decide,
    (c5_error_iff_empty [(⟨0, 7⟩ : WeightedTuple ℕ)]).2 (by decide)⟩

/-- C3: on every non-empty input with positive exact weight sum and no
`u64` overflow, `from_weighted_tuples` returns `ok` and the table's
`probabilities` vector has exactly as many slots as the input has items. -/
theorem c3_build_succeeds_with_n_slots {T : Type}
    (items : List (WeightedTuple T)) (hne : items ≠ [])
    (hS : 0 < trueWeightSum items) (hof : NoOverflow items) :
    ∃ a, from_weighted_tuples items = Except.ok a ∧
      a.probabilities.length = items.length := by
  obtain ⟨g, gs, hlg, hg, hgs, hbuild⟩ := build_ok_char items hne hS hof
  refine ⟨_, hbuild, ?_⟩
  have hlen := smallPart_largePart_length items
  rw [hlg] at hlen
  simp only [List.length_append, List.length_map, List.length_cons] at *
  omega

/-- Witness for C3 at the two-item input with weights 1 and 2. -/
theorem c3_build_succeeds_with_n_slots_witness :
    ([(⟨1, 0⟩ : WeightedTuple ℕ), ⟨2, 1⟩] ≠ []) ∧
    (0 < trueWeightSum [(⟨1, 0⟩ : WeightedTuple ℕ), ⟨2, 1⟩]) ∧
    NoOverflow [(⟨1, 0⟩ : WeightedTuple ℕ), ⟨2, 1⟩] ∧
    ∃ a, from_weighted_tuples [(⟨1, 0⟩ : WeightedTuple ℕ), ⟨2, 1⟩] =
        Except.ok a ∧ a.probabilities.length = 2 :=
  ⟨by decide, by decide, by decide,
    c3_build_succeeds_with_n_slots [(⟨1, 0⟩ : WeightedTuple ℕ), ⟨2, 1⟩]
      (by decide) (by decide) (by decide)⟩

/-- C9: under the no-overflow precondition (each `weight * n` fits in a
`u64`, the weight sum fits in a `u64` and is positive), each normalized
fractional weight computed by the builder is the exact rational
`weight * n / S`; the weights being `ℚ`, all subsequent comparisons on
them are exact rational comparisons. -/
theorem c9_normalized_weight_exact {T : Type} (items : List (WeightedTuple T))
    (hS : 0 < trueWeightSum items) (hof : NoOverflow items) :
    normalize items = items.map fun wt =>
      ⟨(wt.weight : ℚ) * (items.length : ℚ) / ((trueWeightSum items : ℕ) : ℚ),
        wt.value⟩ := by
  rw [normalize_eq hof]
  refine List.map_congr_left fun wt hwt => ?_
  have hcast : ((wt.weight * items.length : ℕ) : ℚ)
      = (wt.weight : ℚ) * (items.length : ℚ) := by push_cast; ring
  rw [hcast]

/-- Witness for C9 at weights 1 and 3: the normalized weights are exactly
1/2 and 3/2. -/
theorem c9_normalized_weight_exact_witness :
    (0 < trueWeightSum [(⟨1, 0⟩ : WeightedTuple ℕ), ⟨3, 1⟩]) ∧
    NoOverflow [(⟨1, 0⟩ : WeightedTuple ℕ), ⟨3, 1⟩] ∧
    normalize [(⟨1, 0⟩ : WeightedTuple ℕ), ⟨3, 1⟩] =
      [(⟨1, 0⟩ : WeightedTuple ℕ), ⟨3, 1⟩].map fun wt =>
        ⟨(wt.weight : ℚ) * 2 / 4, wt.value⟩ := by
  refine ⟨by decide, by decide, ?_⟩
  have h := c9_normalized_weight_exact [(⟨1, 0⟩ : WeightedTuple ℕ), ⟨3, 1⟩]
    (by decide) (by decide)
  simpa using h

/-- C2 (code bug): in the pairing loop, the source updates the popped
large item's weight to `g + g - 1` (lib.rs lines 133–134), not to the
standard Vose value `g + l - 1` stated by the claim and by the source's
own algorithm comment (lib.rs line 51, `Set pg:=(pg+pl)−1`).  At the
weights `[1, 3]` the loop pops `l` with weight 1/2 and `g` with weight
3/2; the code leaves `g` at weight 2 where the claim requires 1. -/
theorem c2_update_ignores_small_item :
    partitionStacks (normalize [(⟨1, 0⟩ : WeightedTuple ℕ), ⟨3, 1⟩]) =
      ([⟨1/2, 0⟩], [⟨3/2, 1⟩]) ∧
    reduced_fraction (⟨3/2, 1⟩ : NormalizedWeightTuple ℕ) = 2 ∧
    ((3 : ℚ)/2 + 1/2 - 1 = 1) ∧ ((2 : ℚ) ≠ 1) ∧
    pairLoop [⟨1/2, 0⟩] [⟨3/2, 1⟩] ([] : List (NormalizedWeightTuple ℕ)) [] =
      ([], [⟨2, 1⟩], [⟨1/2, 0⟩], [1]) := by
  refine ⟨?_, by norm_num [reduced_fraction], by norm_num,
    by norm_num, ?_⟩
  · norm_num [partitionStacks, normalize, weightSum, wrapAdd, wrapMul,
      mkFraction, U64]
  · rw [pairLoop_ge_one _ _ _ _ _ (by norm_num)]
    norm_num [reduceN, reduced_fraction]

/-- C1 (code bug): at the pairwise-distinct-valued input with weights
`[1, 3, 2]` (positive sum 6, no overflow), the built table gives the
weight-3 item an exact selection mass of 1/3 under the claim's accounting
rule, but the claim requires `3/6 = 1/2`.  The root cause is the loop
update of C2: drained large items keep probability-1 slots while the
initial top of the large stack absorbs all alias mass. -/
theorem c1_distribution_not_realized :
    from_weighted_tuples [(⟨1, 0⟩ : WeightedTuple ℕ), ⟨3, 1⟩, ⟨2, 2⟩] =
      Except.ok ⟨[⟨1/2, 0⟩, ⟨1, 2⟩, ⟨1, 1⟩], [2]⟩ ∧
    spec_selectionMass (⟨[⟨1/2, 0⟩, ⟨1, 2⟩, ⟨1, 1⟩], [2]⟩ : Alias ℕ) 1
      = 1/3 ∧
    ((3 : ℚ) / (1 + 3 + 2) ≠ 1/3) := by
  refine ⟨?_, by norm_num [spec_selectionMass], by norm_num⟩
  have hpart :
      partitionStacks (normalize [(⟨1, 0⟩ : WeightedTuple ℕ), ⟨3, 1⟩, ⟨2, 2⟩])
        = ([⟨1/2, 0⟩], [⟨1, 2⟩, ⟨3/2, 1⟩]) := by
    norm_num [partitionStacks, normalize, weightSum, wrapAdd, wrapMul,
      mkFraction, U64]
  unfold from_weighted_tuples
  rw [if_neg (by norm_num),
    if_neg (by norm_num [weightSum, wrapAdd, U64])]
  simp only [hpart]
  rw [pairLoop_ge_one _ _ _ _ _ (by norm_num)]
  norm_num [reduceN, reduced_fraction, drainLarge_eq]

/-- C7 (counterexample to the claim as stated): the input with weights
`[0, 1]` is non-empty, has positive weight sum 1 and no overflow, yet the
built table's first slot stores probability exactly 0, which is not in
`(0, 1]`.  A zero-weight item normalizes to fractional weight 0, is
classified small, and is emitted with its weight as the slot
probability. -/
theorem c7_counterexample :
    from_weighted_tuples [(⟨0, 0⟩ : WeightedTuple ℕ), ⟨1, 1⟩] =
      Except.ok ⟨[⟨0, 0⟩, ⟨1, 1⟩], [1]⟩ ∧
    ¬ (∀ p ∈ (⟨[⟨0, 0⟩, ⟨1, 1⟩], [1]⟩ : Alias ℕ).probabilities,
        0 < p.fractional_weight ∧ p.fractional_weight ≤ 1) ∧
    0 < trueWeightSum [(⟨0, 0⟩ : WeightedTuple ℕ), ⟨1, 1⟩] ∧
    NoOverflow [(⟨0, 0⟩ : WeightedTuple ℕ), ⟨1, 1⟩] := by
  refine ⟨?_, ?_, by decide, by decide⟩
  · have hpart :
        partitionStacks (normalize [(⟨0, 0⟩ : WeightedTuple ℕ), ⟨1, 1⟩])
          = ([⟨0, 0⟩], [⟨2, 1⟩]) := by
      norm_num [partitionStacks, normalize, weightSum, wrapAdd, wrapMul,
        mkFraction, U64]
    unfold from_weighted_tuples
    rw [if_neg (by norm_num),
      if_neg (by norm_num [weightSum, wrapAdd, U64])]
    simp only [hpart]
    rw [pairLoop_ge_one _ _ _ _ _ (by norm_num)]
    norm_num [reduceN, reduced_fraction, drainLarge_eq]
  · intro h
    have := h ⟨0, 0⟩ (by simp)
    norm_num at this

lemma normalize_fw_pos {T : Type} {items : List (WeightedTuple T)}
    (hof : NoOverflow items) (hS : 0 < trueWeightSum items) (hne : items ≠ [])
    (hw : ∀ wt ∈ items, 0 < wt.weight) {x : NormalizedWeightTuple T}
    (hx : x ∈ normalize items) : 0 < x.fractional_weight := by
  rw [normalize_eq hof] at hx
  obtain ⟨wt, hwt, rfl⟩ := List.mem_map.mp hx
  have hn : 0 < items.length := List.length_pos.mpr hne
  exact div_pos (by exact_mod_cast mul_pos (hw wt hwt) hn)
    (by exact_mod_cast hS)

/-- C7 (amended): for every non-empty input with positive exact weight
sum and no overflow, every stored slot probability is an exact rational
in `[0, 1]`; when additionally every individual input weight is positive,
every stored slot probability is in `(0, 1]`.  (The original claim's
`(0, 1]` bound fails when an input weight is zero: see the
counterexample.) -/
theorem c7_amended_slot_probability_bounds {T : Type}
    (items : List (WeightedTuple T)) (hne : items ≠ [])
    (hS : 0 < trueWeightSum items) (hof : NoOverflow items) :
    ∃ a, from_weighted_tuples items = Except.ok a ∧
      (∀ p ∈ a.probabilities,
        0 ≤ p.fractional_weight ∧ p.fractional_weight ≤ 1) ∧
      ((∀ wt ∈ items, 0 < wt.weight) →
        ∀ p ∈ a.probabilities,
          0 < p.fractional_weight ∧ p.fractional_weight ≤ 1) := by
  obtain ⟨g, gs, hlg, hg, hgs, hbuild⟩ := build_ok_char items hne hS hof
  refine ⟨_, hbuild, ?_, ?_⟩
  · intro p hp
    rcases List.mem_append.mp hp with hp | hp
    · obtain ⟨hmem, hlt⟩ := mem_smallPart hp
      exact ⟨normalize_fw_nonneg hmem, le_of_lt hlt⟩
    · obtain ⟨x, _, rfl⟩ := List.mem_map.mp hp
      norm_num
  · intro hw p hp
    rcases List.mem_append.mp hp with hp | hp
    · obtain ⟨hmem, hlt⟩ := mem_smallPart hp
      exact ⟨normalize_fw_pos hof hS hne hw hmem, le_of_lt hlt⟩
    · obtain ⟨x, _, rfl⟩ := List.mem_map.mp hp
      norm_num

/-- Witness for the amended C7 at weights `[1, 3]` (all positive). -/
theorem c7_amended_slot_probability_bounds_witness :
    ([(⟨1, 0⟩ : WeightedTuple ℕ), ⟨3, 1⟩] ≠ []) ∧
    (0 < trueWeightSum [(⟨1, 0⟩ : WeightedTuple ℕ), ⟨3, 1⟩]) ∧
    NoOverflow [(⟨1, 0⟩ : WeightedTuple ℕ), ⟨3, 1⟩] ∧
    ∃ a, from_weighted_tuples [(⟨1, 0⟩ : WeightedTuple ℕ), ⟨3, 1⟩] =
        Except.ok a ∧
      (∀ p ∈ a.probabilities,
        0 ≤ p.fractional_weight ∧ p.fractional_weight ≤ 1) ∧
      ((∀ wt ∈ [(⟨1, 0⟩ : WeightedTuple ℕ), ⟨3, 1⟩], 0 < wt.weight) →
        ∀ p ∈ a.probabilities,
          0 < p.fractional_weight ∧ p.fractional_weight ≤ 1) :=
  ⟨by decide, by decide, by decide,
    c7_amended_slot_probability_bounds [(⟨1, 0⟩ : WeightedTuple ℕ), ⟨3, 1⟩]
      (by decide) (by decide) (by decide)⟩

/-- C8: with a non-empty input, positive exact weight sum and no
overflow, the pairing loop always exits with the small worklist empty —
only the large worklist remains (non-empty) — and the build then emits
each remaining large item as a slot of probability exactly 1 while
adding no alias entry. -/
theorem c8_only_large_remains {T : Type} (items : List (WeightedTuple T))
    (hne : items ≠ []) (hS : 0 < trueWeightSum items)
    (hof : NoOverflow items) :
    ∃ sm lg smF lgF ps als,
      partitionStacks (normalize items) = (sm, lg) ∧
      pairLoop sm lg [] [] = (smF, lgF, ps, als) ∧
      smF = [] ∧ lgF ≠ [] ∧
      from_weighted_tuples items =
        Except.ok ⟨ps ++ lgF.map (fun x => ⟨1, x.value⟩), als⟩ := by
  obtain ⟨g, gs, hlg, hg, hgs, hbuild⟩ := build_ok_char items hne hS hof
  refine ⟨smallPart items, g :: gs, [],
    reduceN (smallPart items).length g :: gs, smallPart items,
    List.replicate (smallPart items).length g.value,
    by rw [partitionStacks_eq, hlg], ?_, rfl, by simp, ?_⟩
  · rw [pairLoop_ge_one _ _ _ _ _ hg]
    simp
  · rw [hbuild]

/-- Witness for C8 at weights `[1, 2]`. -/
theorem c8_only_large_remains_witness :
    ([(⟨1, 0⟩ : WeightedTuple ℕ), ⟨2, 1⟩] ≠ []) ∧
    (0 < trueWeightSum [(⟨1, 0⟩ : WeightedTuple ℕ), ⟨2, 1⟩]) ∧
    NoOverflow [(⟨1, 0⟩ : WeightedTuple ℕ), ⟨2, 1⟩] ∧
    ∃ sm lg smF lgF ps als,
      partitionStacks (normalize [(⟨1, 0⟩ : WeightedTuple ℕ), ⟨2, 1⟩])
        = (sm, lg) ∧
      pairLoop sm lg [] [] = (smF, lgF, ps, als) ∧
      smF = [] ∧ lgF ≠ [] ∧
      from_weighted_tuples [(⟨1, 0⟩ : WeightedTuple ℕ), ⟨2, 1⟩] =
        Except.ok ⟨ps ++ lgF.map (fun x => ⟨1, x.value⟩), als⟩ :=
  ⟨by decide, by decide, by decide,
    c8_only_large_remains [(⟨1, 0⟩ : WeightedTuple ℕ), ⟨2, 1⟩]
      (by decide) (by decide) (by decide)⟩

/-- C10: under the same preconditions, the branch of the pairing loop
that would reinsert a reduced large item into the small worklist is dead
code as written: the loop coincides with the no-reinsert variant, every
large-worklist weight is `≥ 1` and so is its update `2g - 1`, the large
worklist keeps its exact size through the loop, and the aliases vector's
final length equals the number of items initially classified small. -/
theorem c10_large_never_becomes_small {T : Type}
    (items : List (WeightedTuple T)) (hne : items ≠ [])
    (hS : 0 < trueWeightSum items) (hof : NoOverflow items) :
    ∃ sm lg, partitionStacks (normalize items) = (sm, lg) ∧
      pairLoop sm lg [] [] = pairLoopNoReinsert sm lg [] [] ∧
      (∀ x ∈ lg, 1 ≤ x.fractional_weight ∧ 1 ≤ reduced_fraction x) ∧
      (pairLoop sm lg [] []).2.1.length = lg.length ∧
      sm.length =
        ((normalize items).filter fun x =>
          decide (x.fractional_weight < 1)).length ∧
      ∃ a, from_weighted_tuples items = Except.ok a ∧
        a.aliases.length = sm.length := by
  obtain ⟨g, gs, hlg, hg, hgs, hbuild⟩ := build_ok_char items hne hS hof
  have hmem : ∀ x ∈ g :: gs, 1 ≤ x.fractional_weight := by
    intro x hx
    rcases List.mem_cons.mp hx with rfl | hx
    · exact hg
    · exact hgs x hx
  refine ⟨smallPart items, g :: gs, by rw [partitionStacks_eq, hlg], ?_,
    fun x hx => ⟨hmem x hx, one_le_reduced (hmem x hx)⟩, ?_, ?_, _, hbuild, ?_⟩
  · rw [pairLoop_ge_one _ _ _ _ _ hg, pairLoopNoReinsert_eq]
  · rw [pairLoop_ge_one _ _ _ _ _ hg]
    simp
  · unfold smallPart
    simp
  · simp

/-- Witness for C10 at weights `[1, 2]`. -/
theorem c10_large_never_becomes_small_witness :
    ([(⟨1, 0⟩ : WeightedTuple ℕ), ⟨2, 1⟩] ≠ []) ∧
    (0 < trueWeightSum [(⟨1, 0⟩ : WeightedTuple ℕ), ⟨2, 1⟩]) ∧
    NoOverflow [(⟨1, 0⟩ : WeightedTuple ℕ), ⟨2, 1⟩] ∧
    ∃ sm lg,
      partitionStacks (normalize [(⟨1, 0⟩ : WeightedTuple ℕ), ⟨2, 1⟩])
        = (sm, lg) ∧
      pairLoop sm lg [] [] = pairLoopNoReinsert sm lg [] [] ∧
      (∀ x ∈ lg, 1 ≤ x.fractional_weight ∧ 1 ≤ reduced_fraction x) ∧
      (pairLoop sm lg [] []).2.1.length = lg.length ∧
      sm.length =
        ((normalize [(⟨1, 0⟩ : WeightedTuple ℕ), ⟨2, 1⟩]).filter fun x =>
          decide (x.fractional_weight < 1)).length ∧
      ∃ a, from_weighted_tuples [(⟨1, 0⟩ : WeightedTuple ℕ), ⟨2, 1⟩] =
          Except.ok a ∧ a.aliases.length = sm.length :=
  ⟨by decide, by decide, by decide,
    c10_large_never_becomes_small [(⟨1, 0⟩ : WeightedTuple ℕ), ⟨2, 1⟩]
      (by decide) (by decide) (by decide)⟩

lemma select_stay {T : Type} (a : Alias T) (z : ℕ) (u : ℚ)
    {cp : NormalizedWeightTuple T}
    (hcp : a.probabilities.get? (z % a.probabilities.length) = some cp)
    (h : u ≤ cp.fractional_weight) : select a z u = some cp.value := by
  simp only [select, hcp]
  rw [if_pos h]

lemma select_go {T : Type} (a : Alias T) (z : ℕ) (u : ℚ)
    {cp : NormalizedWeightTuple T}
    (hcp : a.probabilities.get? (z % a.probabilities.length) = some cp)
    (h : ¬ u ≤ cp.fractional_weight) :
    select a z u = a.aliases.get? (z % a.probabilities.length) := by
  simp only [select, hcp]
  rw [if_neg h]

/-- Totality of `select` for any table whose slots beyond the alias
count all store probability exactly 1. -/
lemma select_total_of_table {T : Type} (a : Alias T)
    (hn : 0 < a.probabilities.length)
    (hone : ∀ i, a.aliases.length ≤ i →
      ∀ cp, a.probabilities.get? i = some cp → cp.fractional_weight = 1)
    (z : ℕ) (u : ℚ) (hu1 : u < 1) :
    z % a.probabilities.length < a.probabilities.length ∧
    (∀ cp, a.probabilities.get? (z % a.probabilities.length) = some cp →
      cp.fractional_weight = 1 → select a z u = some cp.value) ∧
    ∃ t, select a z u = some t := by
  have hi : z % a.probabilities.length < a.probabilities.length :=
    Nat.mod_lt _ hn
  obtain ⟨cp, hcp⟩ :
      ∃ cp, a.probabilities.get? (z % a.probabilities.length) = some cp :=
    ⟨_, List.get?_eq_get hi⟩
  refine ⟨hi, fun cp' hcp' h1 =>
    select_stay a z u hcp' (by rw [h1]; exact le_of_lt hu1), ?_⟩
  by_cases hle : u ≤ cp.fractional_weight
  · exact ⟨cp.value, select_stay a z u hcp hle⟩
  · have hlt : cp.fractional_weight < 1 := lt_trans (not_le.mp hle) hu1
    have hidx : z % a.probabilities.length < a.aliases.length := by
      by_contra hge
      push_neg at hge
      exact absurd (hone _ hge cp hcp) (ne_of_lt hlt)
    obtain ⟨t, ht⟩ :
        ∃ t, a.aliases.get? (z % a.probabilities.length) = some t :=
      ⟨_, List.get?_eq_get hidx⟩
    exact ⟨t, (select_go a z u hcp hle).trans ht⟩

/-- C6: for any table with at least one probability slot and any random
pair `(z, u)`, `select` looks up the single slot at index
`z mod (slot count)` and applies the exact rational comparison: it
returns the slot's value when `u ≤` the stored probability, and
otherwise reads the aliases vector at the same index.  No other slot is
consulted. -/
theorem c6_select_decision_rule {T : Type} (a : Alias T) (z : ℕ) (u : ℚ)
    (hne : a.probabilities ≠ []) :
    ∃ cp, a.probabilities.get? (z % a.probabilities.length) = some cp ∧
      (u ≤ cp.fractional_weight → select a z u = some cp.value) ∧
      (cp.fractional_weight < u →
        select a z u = a.aliases.get? (z % a.probabilities.length)) := by
  have hn : 0 < a.probabilities.length := List.length_pos.mpr hne
  have hi : z % a.probabilities.length < a.probabilities.length :=
    Nat.mod_lt _ hn
  refine ⟨_, List.get?_eq_get hi, fun h => select_stay a z u
    (List.get?_eq_get hi) h, fun h => select_go a z u
    (List.get?_eq_get hi) (not_le.mpr h)⟩

/-- Witness for C6 at a concrete two-slot table, `z = 3` and `u = 1/4`. -/
theorem c6_select_decision_rule_witness :
    ((⟨[⟨1/2, 0⟩, ⟨1, 1⟩], [1]⟩ : Alias ℕ).probabilities ≠ []) ∧
    ∃ cp, (⟨[⟨1/2, 0⟩, ⟨1, 1⟩], [1]⟩ : Alias ℕ).probabilities.get?
        (3 % (⟨[⟨1/2, 0⟩, ⟨1, 1⟩], [1]⟩ : Alias ℕ).probabilities.length)
        = some cp ∧
      ((1 : ℚ)/4 ≤ cp.fractional_weight →
        select (⟨[⟨1/2, 0⟩, ⟨1, 1⟩], [1]⟩ : Alias ℕ) 3 (1/4)
          = some cp.value) ∧
      (cp.fractional_weight < (1 : ℚ)/4 →
        select (⟨[⟨1/2, 0⟩, ⟨1, 1⟩], [1]⟩ : Alias ℕ) 3 (1/4)
          = (⟨[⟨1/2, 0⟩, ⟨1, 1⟩], [1]⟩ : Alias ℕ).aliases.get?
              (3 % (⟨[⟨1/2, 0⟩, ⟨1, 1⟩], [1]⟩ : Alias ℕ).probabilities.length)) :=
  ⟨by simp, c6_select_decision_rule (⟨[⟨1/2, 0⟩, ⟨1, 1⟩], [1]⟩ : Alias ℕ)
    3 (1/4) (by simp)⟩

/-- C4: for every table built from a non-empty input with no `u64`
overflow — a zero weight sum included — `select` is total for every
random pair `(z, u)` with `u ∈ [0, 1)`: the die-roll index
`z mod (slot count)` is in bounds, a slot whose stored probability is
exactly 1 always takes the stay branch (its alias is never read), and
`select` always returns a value (it never hits a missing alias
entry). -/
theorem c4_select_never_fails {T : Type} (items : List (WeightedTuple T))
    (hne : items ≠ []) (hof : NoOverflow items) :
    ∃ a, from_weighted_tuples items = Except.ok a ∧
      ∀ z : ℕ, ∀ u : ℚ, 0 ≤ u → u < 1 →
        z % a.probabilities.length < a.probabilities.length ∧
        (∀ cp, a.probabilities.get? (z % a.probabilities.length) = some cp →
          cp.fractional_weight = 1 → select a z u = some cp.value) ∧
        ∃ t, select a z u = some t := by
  by_cases h0 : trueWeightSum items = 0
  · have hws : weightSum items = 0 := by rw [weightSum_eq hof.1, h0]
    refine ⟨⟨((normalize items).reverse).map
        (fun x => (⟨1, x.value⟩ : NormalizedWeightTuple T)), []⟩, ?_,
      fun z u hu0 hu1 => select_total_of_table _ ?_ ?_ z u hu1⟩
    · unfold from_weighted_tuples
      rw [if_neg (by simpa [List.length_eq_zero] using hne), if_pos hws,
        drainLarge_eq]
      simp
    · show 0 < (((normalize items).reverse).map
        (fun x => (⟨1, x.value⟩ : NormalizedWeightTuple T))).length
      have hlen : 0 < items.length := List.length_pos.mpr hne
      simpa [normalize] using hlen
    · intro i hge cp hcp
      have hmem := List.get?_mem hcp
      obtain ⟨x, _, hx⟩ := List.mem_map.mp hmem
      rw [← hx]
  · have hS : 0 < trueWeightSum items := Nat.pos_of_ne_zero h0
    obtain ⟨g, gs, hlg, hg, hgs, hbuild⟩ := build_ok_char items hne hS hof
    refine ⟨_, hbuild, fun z u hu0 hu1 =>
      select_total_of_table _ ?_ ?_ z u hu1⟩
    · show 0 < (smallPart items ++
        (reduceN (smallPart items).length g :: gs).map
          (fun x => (⟨1, x.value⟩ : NormalizedWeightTuple T))).length
      simp
    · intro i hge cp hcp
      have hge' : (smallPart items).length ≤ i := by
        have : (List.replicate (smallPart items).length g.value).length ≤ i :=
          hge
        simpa using this
      have hcp2 : (smallPart items ++
          (reduceN (smallPart items).length g :: gs).map
            (fun x => (⟨1, x.value⟩ : NormalizedWeightTuple T))).get? i
            = some cp := hcp
      rw [List.get?_append_right hge'] at hcp2
      have hmem := List.get?_mem hcp2
      obtain ⟨x, _, hx⟩ := List.mem_map.mp hmem
      rw [← hx]

/-- Witness for C4 at the zero-weight-sum input with weights `[0, 0]`:
the previously contested case, on which the build succeeds with two
probability-1 slots and `select` is total. -/
theorem c4_select_never_fails_witness :
    ([(⟨0, 0⟩ : WeightedTuple ℕ), ⟨0, 1⟩] ≠ []) ∧
    NoOverflow [(⟨0, 0⟩ : WeightedTuple ℕ), ⟨0, 1⟩] ∧
    ∃ a, from_weighted_tuples [(⟨0, 0⟩ : WeightedTuple ℕ), ⟨0, 1⟩] =
        Except.ok a ∧
      ∀ z : ℕ, ∀ u : ℚ, 0 ≤ u → u < 1 →
        z % a.probabilities.length < a.probabilities.length ∧
        (∀ cp, a.probabilities.get? (z % a.probabilities.length) = some cp →
          cp.fractional_weight = 1 → select a z u = some cp.value) ∧
        ∃ t, select a z u = some t :=
  ⟨by decide, by decide,
    c4_select_never_fails [(⟨0, 0⟩ : WeightedTuple ℕ), ⟨0, 1⟩]
      (by decide) (by decide)⟩

end WeightedProbability
